import Mathlib

/-!
Verification of the Binairo constraint-solving engine
(`scripts/solve.py`, with the validator grid check from
`scripts/validate.py` and the technique extractor from `scripts/rank.py`).

Cells are tri-state values stored as `Option Int` (`none` is the empty
marker, mirroring Python's `None`-or-int cells); a grid is a list of rows,
mirroring the Python list-of-lists representation.  All solver operations
are embedded as pure functions threading the mutable grid state explicitly.
-/

namespace Binairo

abbrev Cell := Option Int

abbrev Grid := List (List Cell)

/-- `self.size`: the side length, `len(puzzle)`. -/
def gsize (g : Grid) : Nat := g.length

/-- `self.half_size = self.size // 2`. -/
def halfSize (g : Grid) : Nat := gsize g / 2

/-- Read `self.grid[r][c]` (out-of-range reads return the empty marker). -/
def getCell (g : Grid) (r c : Nat) : Cell := (g.getD r []).getD c none

/-- Write `self.grid[r][c] = v` (out-of-range writes are dropped). -/
def setCell (g : Grid) (r c : Nat) (v : Cell) : Grid :=
  g.set r ((g.getD r []).set c v)

/-- Well-formed square grid of side `n`: the shape required of engine inputs. -/
def WF (n : Nat) (g : Grid) : Prop :=
  g.length = n ∧ ∀ row ∈ g, row.length = n

/-! ### Basic lemmas about cell access -/

theorem list_set_getD_self {α : Type _} (l : List α) (i : Nat) (d : α) :
    l.set i (l.getD i d) = l := by
  induction l generalizing i with
  | nil => simp
  | cons a t ih =>
    cases i with
    | zero => simp
    | succ j => simpa using ih j

theorem list_set_getD_ne {α : Type _} {i j : Nat} (h : i ≠ j)
    (l : List α) (v : α) (d : α) : (l.set i v).getD j d = l.getD j d := by
  simp [List.getD_eq_getElem?_getD, List.getElem?_set, h]

theorem list_set_getD_eq {α : Type _} {l : List α} {i : Nat} (h : i < l.length)
    (v d : α) : (l.set i v).getD i d = v := by
  simp [List.getD_eq_getElem?_getD, List.getElem?_set_self h]

theorem getD_eq_getElem {α : Type _} {l : List α} {i : Nat} (h : i < l.length)
    (d : α) : l.getD i d = l[i] := by
  simp [List.getD_eq_getElem?_getD, List.getElem?_eq_getElem h]

theorem gsize_setCell (g : Grid) (r c : Nat) (v : Cell) :
    gsize (setCell g r c v) = gsize g := by
  simp [gsize, setCell]

theorem WF_setCell {n : Nat} {g : Grid} (h : WF n g) (r c : Nat) (v : Cell) :
    WF n (setCell g r c v) := by
  obtain ⟨hl, hr⟩ := h
  rcases Nat.lt_or_ge r g.length with hlt | hge
  · refine ⟨by simpa [setCell], ?_⟩
    intro row hrow
    rcases List.mem_or_eq_of_mem_set hrow with h1 | h2
    · exact hr row h1
    · subst h2
      rw [getD_eq_getElem hlt, List.length_set]
      exact hr _ (List.getElem_mem hlt)
  · unfold setCell
    rw [List.set_eq_of_length_le (by omega)]
    exact ⟨hl, hr⟩

theorem getCell_setCell_ne {r c r' c' : Nat}
    (h : (r, c) ≠ (r', c')) (g : Grid) (v : Cell) :
    getCell (setCell g r c v) r' c' = getCell g r' c' := by
  unfold getCell setCell
  rcases eq_or_ne r r' with rfl | hr
  · have hc : c ≠ c' := fun hc => h (by rw [hc])
    rcases Nat.lt_or_ge r g.length with hlt | hge
    · rw [list_set_getD_eq (by simpa using hlt), list_set_getD_ne hc]
    · rw [List.set_eq_of_length_le (by omega)]
  · have hrow : (g.set r ((g.getD r []).set c v)).getD r' [] = g.getD r' [] := by
      simp [List.getD_eq_getElem?_getD, List.getElem?_set, hr]
    rw [hrow]

theorem getCell_setCell_eq {n : Nat} {g : Grid} (h : WF n g)
    {r c : Nat} (hrn : r < n) (hcn : c < n) (v : Cell) :
    getCell (setCell g r c v) r c = v := by
  obtain ⟨hl, hr⟩ := h
  have hlt : r < g.length := by omega
  have hrowlen : (g.getD r []).length = n := by
    rw [getD_eq_getElem hlt]
    exact hr _ (List.getElem_mem hlt)
  unfold getCell setCell
  rw [list_set_getD_eq (by simpa using hlt),
    list_set_getD_eq (by omega : c < (g.getD r []).length)]

theorem setCell_setCell (g : Grid) (r c : Nat) (a b : Cell) :
    setCell (setCell g r c a) r c b = setCell g r c b := by
  rcases Nat.lt_or_ge r g.length with hlt | hge
  · unfold setCell
    rw [list_set_getD_eq (by simpa using hlt), List.set_set, List.set_set]
  · have h1 : setCell g r c a = g := by
      unfold setCell; exact List.set_eq_of_length_le (by omega)
    rw [h1]

theorem setCell_getCell (g : Grid) (r c : Nat) :
    setCell g r c (getCell g r c) = g := by
  unfold setCell getCell
  rw [list_set_getD_self, list_set_getD_self]

/-- Setting two distinct cells commutes. -/
theorem setCell_comm {r c r' c' : Nat} (h : (r, c) ≠ (r', c'))
    (g : Grid) (v v' : Cell) :
    setCell (setCell g r c v) r' c' v' = setCell (setCell g r' c' v') r c v := by
  rcases eq_or_ne r r' with rfl | hr
  · have hc : c ≠ c' := fun hc => h (by rw [hc])
    rcases Nat.lt_or_ge r g.length with hlt | hge
    · unfold setCell
      rw [list_set_getD_eq (by simpa using hlt),
        list_set_getD_eq (by simpa using hlt),
        List.set_set, List.set_set, List.set_comm _ _ _ hc]
    · have e1 : ∀ (c0 : Nat) (v0 : Cell), setCell g r c0 v0 = g := fun c0 v0 => by
        unfold setCell; exact List.set_eq_of_length_le (by omega)
      simp only [e1]
  · unfold setCell
    have hrow1 : (g.set r ((g.getD r []).set c v)).getD r' [] = g.getD r' [] := by
      simp [List.getD_eq_getElem?_getD, List.getElem?_set, hr]
    have hr' : r' ≠ r := fun h' => hr h'.symm
    have hrow2 : (g.set r' ((g.getD r' []).set c' v')).getD r [] = g.getD r [] := by
      simp [List.getD_eq_getElem?_getD, List.getElem?_set, hr']
    rw [hrow1, hrow2, List.set_comm _ _ _ hr]

/-! ### Constraint predicates (`BinairoSolver._is_valid_placement`,
`is_complete`, `is_valid`) -/

/-- One 3-cell row window test: `grid[r][s] is not None and
grid[r][s] == grid[r][s+1] == grid[r][s+2]`. -/
def tripleBadRow (g : Grid) (r s : Nat) : Bool :=
  (getCell g r s).isSome && (getCell g r s == getCell g r (s+1)) &&
    (getCell g r (s+1) == getCell g r (s+2))

/-- One 3-cell column window test: `grid[s][c] is not None and
grid[s][c] == grid[s+1][c] == grid[s+2][c]`. -/
def tripleBadCol (g : Grid) (c s : Nat) : Bool :=
  (getCell g s c).isSome && (getCell g s c == getCell g (s+1) c) &&
    (getCell g (s+1) c == getCell g (s+2) c)

/-- `range(max(0, i-2), min(size-2, i+1))`: window start positions around
index `i` in a line of length `n`. -/
def winRange (n i : Nat) : List Nat :=
  List.range' (max 0 (i - 2)) (min (n - 2) (i + 1) - max 0 (i - 2))

/-- `BinairoSolver._is_valid_placement(r, c, value)` as a pure function:
the value is evaluated on the grid with `value` written at `(r, c)`,
checking the 3-in-a-row windows through `(r, c)` and the running counts
of `value` in row `r` and column `c` against `half_size`. -/
def is_valid_placement (g : Grid) (r c : Nat) (value : Int) : Bool :=
  let n := gsize g
  let g1 := setCell g r c (some value)
  let rowWinOK := (winRange n c).all fun s => !(tripleBadRow g1 r s)
  let colWinOK := (winRange n r).all fun s => !(tripleBadCol g1 c s)
  let rowCount := (List.range n).countP fun col => getCell g1 r col == some value
  let colCount := (List.range n).countP fun row => getCell g1 row c == some value
  rowWinOK && colWinOK &&
    !(decide (rowCount > halfSize g) || decide (colCount > halfSize g))

/-- `_is_valid_placement` with its mutation made explicit: the method
temporarily writes `value` at `(r, c)` and writes the original cell back
before returning; the second component is the grid as left by the call. -/
def is_valid_placement_run (g : Grid) (r c : Nat) (value : Int) :
    Bool × Grid :=
  let original := getCell g r c
  let g1 := setCell g r c (some value)
  (is_valid_placement g r c value, setCell g1 r c original)

/-- `BinairoSolver.is_complete`. -/
def is_complete (g : Grid) : Bool :=
  (List.range (gsize g)).all fun r =>
    (List.range (gsize g)).all fun c => (getCell g r c).isSome

/-- The column list `[grid[r][c] for r in range(size)]`. -/
def colList (g : Grid) (c : Nat) : List Cell :=
  (List.range (gsize g)).map fun r => getCell g r c

/-- The per-line check used by `is_valid` on a row or column list:
exactly `half` zeros and `half` ones, and no three consecutive equal
entries. -/
def lineValid (g : Grid) (line : List Cell) : Bool :=
  (line.count (some 0) == halfSize g) && (line.count (some 1) == halfSize g) &&
    ((List.range (gsize g - 2)).all fun i =>
      !((line.getD i none == line.getD (i+1) none) &&
        (line.getD (i+1) none == line.getD (i+2) none)))

/-- `BinairoSolver.is_valid`: complete, every row and column balanced and
3-run free, no duplicate rows, no duplicate columns. -/
def is_valid (g : Grid) : Bool :=
  is_complete g &&
  ((List.range (gsize g)).all fun r => lineValid g (g.getD r [])) &&
  ((List.range (gsize g)).all fun c => lineValid g (colList g c)) &&
  ((List.range (gsize g)).all fun r1 =>
    (List.range' (r1 + 1) (gsize g - (r1 + 1))).all fun r2 =>
      !(g.getD r1 [] == g.getD r2 [])) &&
  ((List.range (gsize g)).all fun c1 =>
    (List.range' (c1 + 1) (gsize g - (c1 + 1))).all fun c2 =>
      !(colList g c1 == colList g c2))

end Binairo

namespace Binairo

/-! ### Move-log strings (`moves_log` entries) and the ranker's
technique extractor (`TechniqueAnalyzer._extract_technique`) -/

/-- The shared head of a log entry: `f"Set ({chr(65+c)},{r+1}) = {val}"`. -/
def moveStem (r c : Nat) (v : Int) : String :=
  "Set (" ++ String.singleton (Char.ofNat (65 + c)) ++ "," ++ toString (r + 1)
    ++ ") = " ++ toString v

/-- A constraint-propagation log entry. -/
def forcedString (r c : Nat) (v : Int) : String :=
  moveStem r c v ++ " [Forced by constraints]"

/-- A backtracking log entry, `f"... [Backtrack {index+1}/{total}]"`. -/
def btString (r c : Nat) (v : Int) (idx total : Nat) : String :=
  moveStem r c v ++ " [Backtrack " ++ toString (idx + 1) ++ "/"
    ++ toString total ++ "]"

/-- Python's `str.startswith`. -/
def strStartsWith (s pre : String) : Bool := pre.data.isPrefixOf s.data

/-- Substring containment on character lists. -/
def hasSub (pat : List Char) : List Char → Bool
  | [] => pat.isEmpty
  | a :: t => pat.isPrefixOf (a :: t) || hasSub pat t

/-- Python's `pat in s` substring test. -/
def containsStr (s pat : String) : Bool := hasSub pat.data s.data

/-- `TechniqueAnalyzer._extract_technique` (rank.py): substring matching
over the free-text move description. -/
def extract_technique (move : String) : String :=
  if containsStr move "Avoid" then "Avoid"
  else if containsStr move "Balance" then "Balance"
  else if containsStr move "Prevent" then "Prevent"
  else if containsStr move "Forced" then "Forced"
  else "Unknown"

/-- The conditional pop in `_backtrack`:
`if self.moves_log and self.moves_log[-1].startswith(...): pop()`. -/
def popMove (log : List String) (r c : Nat) (v : Int) : List String :=
  match log.getLast? with
  | some last => if strStartsWith last (moveStem r c v) then log.dropLast else log
  | none => log

/-! ### Constraint propagation (`BinairoSolver._apply_forced_moves`)
and the propagation loop in `solve` -/

/-- All `(r, c)` positions in row-major order, as visited by the
`for r in range(size): for c in range(size)` loops. -/
def allCells (n : Nat) : List (Nat × Nat) := List.range n ×ˢ List.range n

/-- The list of empty cells, in row-major scan order. -/
def emptiesOf (g : Grid) : List (Nat × Nat) :=
  (allCells (gsize g)).filter fun rc => (getCell g rc.1 rc.2).isNone

def countEmpty (g : Grid) : Nat := (emptiesOf g).length

/-- One `_apply_forced_moves` sweep over the given cells, threading the
grid, the accumulated progress flag and the moves log.  A cell with a
unique valid value is filled; a cell with no valid value aborts the sweep
returning `False` (leaving prior mutations in place). -/
def sweep : Grid → Bool → List String → List (Nat × Nat) →
    Bool × Grid × List String
  | g, progress, log, [] => (progress, g, log)
  | g, progress, log, (r, c) :: rest =>
    if (getCell g r c).isSome then sweep g progress log rest
    else
      match ([0, 1] : List Int).filter fun v => is_valid_placement g r c v with
      | [v] => sweep (setCell g r c (some v)) true
          (log ++ [forcedString r c v]) rest
      | [] => (false, g, log)
      | _ => sweep g progress log rest

/-- `BinairoSolver._apply_forced_moves`. -/
def apply_forced_moves (g : Grid) (log : List String) :
    Bool × Grid × List String :=
  sweep g false log (allCells (gsize g))

/-- The `while progress:` propagation loop of `solve`, with explicit fuel;
each productive iteration refilters the solver's `empty_cells` list. -/
def propLoop : Nat → Grid → List String → List (Nat × Nat) →
    Grid × List String × List (Nat × Nat)
  | 0, g, log, emp => (g, log, emp)
  | fuel + 1, g, log, emp =>
    match apply_forced_moves g log with
    | (true, g', log') =>
      propLoop fuel g' log'
        (emp.filter fun rc => (getCell g' rc.1 rc.2).isNone)
    | (false, g', log') => (g', log', emp)

/-! ### Cell ordering and backtracking search -/

/-- `constraint_count`: how many of `{0, 1}` pass `_is_valid_placement`. -/
def constraint_count (g : Grid) (rc : Nat × Nat) : Nat :=
  (([0, 1] : List Int).filter fun v =>
    is_valid_placement g rc.1 rc.2 v).length

/-- Insert `x` in front of the first element with a key not below its
own; used to realise Python's stable `sorted` by key.  `x` stands before
every later element with an equal key, which is exactly stability when
insertion proceeds right to left. -/
def insertByKey (key : Nat × Nat → Nat) (x : Nat × Nat) :
    List (Nat × Nat) → List (Nat × Nat)
  | [] => [x]
  | y :: t => if key y < key x then y :: insertByKey key x t else x :: y :: t

/-- Stable ascending sort by key, as computed by Python's `sorted`. -/
def sortByKey (key : Nat × Nat → Nat) : List (Nat × Nat) → List (Nat × Nat)
  | [] => []
  | x :: t => insertByKey key x (sortByKey key t)

/-- `BinairoSolver._sort_by_constraints`: stable sort by ascending
constraint count (Python's `sorted` with a key). -/
def sort_by_constraints (g : Grid) (cells : List (Nat × Nat)) :
    List (Nat × Nat) :=
  sortByKey (constraint_count g) cells

/-- `BinairoSolver._backtrack`: try 0 then 1 at the current cell, recurse,
and on failure restore the cell to `None` and pop the log entry;
at the leaf the filled grid must pass `is_valid`. -/
def backtrackGo (total : Nat) : Nat → Grid → List String →
    List (Nat × Nat) → Bool × Grid × List String
  | _, g, log, [] => (is_valid g, g, log)
  | idx, g, log, (r, c) :: rest =>
    let t0 : Bool × Grid × List String :=
      if is_valid_placement g r c 0 then
        match backtrackGo total (idx + 1) (setCell g r c (some 0))
            (log ++ [btString r c 0 idx total]) rest with
        | (true, g2, log2) => (true, g2, log2)
        | (false, g2, log2) => (false, setCell g2 r c none, popMove log2 r c 0)
      else (false, g, log)
    match t0 with
    | (true, g1, log1) => (true, g1, log1)
    | (false, g1, log1) =>
      if is_valid_placement g1 r c 1 then
        match backtrackGo total (idx + 1) (setCell g1 r c (some 1))
            (log1 ++ [btString r c 1 idx total]) rest with
        | (true, g2, log2) => (true, g2, log2)
        | (false, g2, log2) => (false, setCell g2 r c none, popMove log2 r c 1)
      else (false, g1, log1)

/-! ### `BinairoSolver.solve` -/

structure SolveResult where
  solved : Bool
  grid : Grid
  log : List String
deriving DecidableEq

/-- The initial constraint-propagation phase of `solve` (the
`while progress` loop); `countEmpty g + 1` sweeps always suffice on a
well-formed grid (proved below). -/
def solvePropagation (g : Grid) : Grid × List String × List (Nat × Nat) :=
  propLoop (countEmpty g + 1) g [] (emptiesOf g)

/-- `BinairoSolver.solve`: collect empty cells; if none, just validate;
otherwise propagate forced moves to a fixed point, then sort the remaining
empty cells and backtrack.  On failure the grid is reset to the snapshot
taken after propagation (`original_grid`). -/
def solve (g : Grid) : SolveResult :=
  if (emptiesOf g).isEmpty then
    { solved := is_valid g, grid := g, log := [] }
  else
    let p := solvePropagation g
    if p.2.2.isEmpty then
      { solved := is_valid p.1, grid := p.1, log := p.2.1 }
    else
      let cells := sort_by_constraints p.1 p.2.2
      let res := backtrackGo cells.length 0 p.1 p.2.1 cells
      if res.1 && is_valid res.2.1 then
        { solved := true, grid := res.2.1, log := res.2.2 }
      else
        { solved := false, grid := p.1, log := res.2.2 }

/-! ### Solution counting (`count_solutions`) -/

/-- `BinairoSolver._count_solutions_recursive`, threading the grid:
accumulate counts over both values, restoring the cell after each branch,
and stop early once `max_count` is reached. -/
def csr : List (Nat × Nat) → Grid → Nat → Nat × Grid
  | [], g, _ => ((if is_valid g then 1 else 0), g)
  | (r, c) :: rest, g, maxC =>
    let t0 : Nat × Grid × Bool :=
      if is_valid_placement g r c 0 then
        let res := csr rest (setCell g r c (some 0)) maxC
        if res.1 ≥ maxC then (maxC, setCell res.2 r c none, true)
        else (res.1, setCell res.2 r c none, false)
      else (0, g, false)
    match t0 with
    | (cnt, g0, true) => (cnt, g0)
    | (cnt0, g0, false) =>
      if is_valid_placement g0 r c 1 then
        let res := csr rest (setCell g0 r c (some 1)) maxC
        if cnt0 + res.1 ≥ maxC then (maxC, setCell res.2 r c none)
        else (cnt0 + res.1, setCell res.2 r c none)
      else (cnt0, g0)

/-- `BinairoSolver.count_solutions`: sort the empty cells, run the
recursive counter, and restore the grid from the `original_grid`
snapshot taken before the recursion. -/
def count_solutions (g : Grid) (max_count : Nat) : Nat × Grid :=
  let empties := emptiesOf g
  if empties.isEmpty then ((if is_valid g then 1 else 0), g)
  else
    let cells := sort_by_constraints g empties
    ((csr cells g max_count).1, g)

/-! ### The validator's grid check
(`PuzzleValidator._validate_puzzle_grid`, validate.py) -/

/-- The grid-shape and cell-literal checks of `_validate_puzzle_grid`:
height matches the declared size, every row has that length, and every
cell is `null`, `0` or `1`.  Returns whether no error was recorded. -/
def validate_puzzle_grid (expected : Nat) (puzzle : Grid) : Bool :=
  if puzzle.length = expected then
    puzzle.all fun row =>
      (row.length == expected) && row.all fun cell =>
        (cell == none) || (cell == some 0) || (cell == some 1)
  else false

/-! ### Reference count of valid completions (specification side) -/

/-- All 0/1 vectors of a given length, the assignments tried for the
empty cells. -/
def vecs : Nat → List (List Int)
  | 0 => [[]]
  | k + 1 => ((vecs k).map fun vs => 0 :: vs) ++ ((vecs k).map fun vs => 1 :: vs)

/-- Write an assignment vector into the given cells. -/
def applyAsg : Grid → List (Nat × Nat) → List Int → Grid
  | g, [], _ => g
  | g, _ :: _, [] => g
  | g, (r, c) :: rest, v :: vs => applyAsg (setCell g r c (some v)) rest vs

/-- The number of distinct 0/1 assignments of the given cells whose
resulting grid passes `is_valid`. -/
def assignCount (g : Grid) (cells : List (Nat × Nat)) : Nat :=
  (vecs cells.length).countP fun vs => is_valid (applyAsg g cells vs)

/-- The number of distinct valid completions of the empty cells of `g`. -/
def numCompletions (g : Grid) : Nat := assignCount g (emptiesOf g)

end Binairo

namespace Binairo

/-! ### General bridging lemmas -/

theorem all_range_iff {n : Nat} {p : Nat → Bool} :
    ((List.range n).all p = true) ↔ ∀ i, i < n → p i = true := by
  simp [List.all_eq_true, List.mem_range]

theorem all_range'_iff {a k : Nat} {p : Nat → Bool} :
    ((List.range' a k).all p = true) ↔
      ∀ i, a ≤ i → i < a + k → p i = true := by
  rw [List.all_eq_true]
  constructor
  · intro h i h1 h2
    refine h i ?_
    rw [List.mem_range']
    exact ⟨i - a, by omega, by omega⟩
  · intro h i hi
    rw [List.mem_range'] at hi
    obtain ⟨j, hj, rfl⟩ := hi
    exact h _ (by omega) (by omega)

theorem filter_eq_nil_of_isEmpty {α : Type _} {l : List α} {p : α → Bool}
    (h : (l.filter p).isEmpty = true) : ∀ a ∈ l, p a = false := by
  rw [List.isEmpty_iff, List.filter_eq_nil_iff] at h
  intro a ha
  simpa using h a ha

/-! ### Sweep / propagation basic behaviour -/

/-- A sweep over cells that are all filled does nothing. -/
theorem sweep_of_all_some {cells : List (Nat × Nat)} {g : Grid}
    (h : ∀ rc ∈ cells, (getCell g rc.1 rc.2).isSome = true)
    (p : Bool) (log : List String) : sweep g p log cells = (p, g, log) := by
  induction cells with
  | nil => rfl
  | cons x rest ih =>
    obtain ⟨r, c⟩ := x
    rw [sweep, if_pos (h (r, c) (by simp))]
    exact ih fun rc hrc => h rc (by simp [hrc])

/-- On a grid with no empty cells, `_apply_forced_moves` reports no
progress and leaves the state unchanged. -/
theorem apply_forced_moves_of_no_empty {g : Grid}
    (h : (emptiesOf g).isEmpty = true) (log : List String) :
    apply_forced_moves g log = (false, g, log) := by
  unfold apply_forced_moves
  refine sweep_of_all_some ?_ _ _
  intro rc hrc
  have := filter_eq_nil_of_isEmpty (l := allCells (gsize g))
    (p := fun rc => (getCell g rc.1 rc.2).isNone) h rc hrc
  simpa [Option.isNone_iff_eq_none, Option.isSome_iff_ne_none] using this

/-- If the grid has no empty cells, the propagation loop is the identity
on the grid component. -/
theorem propLoop_of_no_empty {g : Grid}
    (h : (emptiesOf g).isEmpty = true) (fuel : Nat) (log : List String)
    (emp : List (Nat × Nat)) : (propLoop (fuel + 1) g log emp).1 = g := by
  rw [propLoop, apply_forced_moves_of_no_empty h]

/-! ### Claim theorems: frame and soundness properties -/

/-- Claim C10 (confirmed): after `count_solutions` returns, the solver's
grid equals its exact state at the moment of the call: the method
restores the `original_grid` snapshot taken before the recursive
exploration, and nothing mutates the grid before that snapshot. -/
theorem c10_count_solutions_restores_grid (g : Grid) (max_count : Nat) :
    (count_solutions g max_count).2 = g := by
  unfold count_solutions
  by_cases h : (emptiesOf g).isEmpty <;> simp [h]

/-- Claim C2 (confirmed): whenever `solve` returns `solved = True`, the
final grid passes the full validity check `is_valid`; every success path
of `solve` gates its result on `is_valid`. -/
theorem c2_solve_claims_success_only_when_valid (g : Grid)
    (h : (solve g).solved = true) : is_valid (solve g).grid = true := by
  unfold solve at h ⊢
  by_cases h1 : (emptiesOf g).isEmpty
  · simp only [h1, if_true] at h ⊢
    exact h
  · simp only [h1, Bool.false_eq_true, if_false] at h ⊢
    by_cases h2 : (solvePropagation g).2.2.isEmpty
    · simp only [h2, if_true] at h ⊢
      exact h
    · simp only [h2, Bool.false_eq_true, if_false] at h ⊢
      set res := backtrackGo
        (sort_by_constraints (solvePropagation g).1 (solvePropagation g).2.2).length
        0 (solvePropagation g).1 (solvePropagation g).2.1
        (sort_by_constraints (solvePropagation g).1 (solvePropagation g).2.2) with hres
      by_cases h3 : res.1 && is_valid res.2.1
      · simp only [h3, if_true]
        exact (Bool.and_eq_true _ _ |>.mp h3).2
      · simp only [h3, Bool.false_eq_true, if_false] at h

/-- Witness for C2 at a concrete already-complete valid grid. -/
theorem c2_witness :
    is_valid (solve [[some 0, some 1], [some 1, some 0]]).grid = true :=
  c2_solve_claims_success_only_when_valid _ (by decide)

/-- Claim C1, counterexample: on this grid `solve` fails, yet the grid it
leaves behind differs from the pre-call state — the forced move written
by constraint propagation before the `original_grid` snapshot was taken
is still visible to the caller. -/
theorem c1_counterexample :
    (solve [[some 0, some 0], [none, none]]).solved = false ∧
    (solve [[some 0, some 0], [none, none]]).grid ≠
      [[some 0, some 0], [none, none]] := by
  constructor
  · decide
  · decide

/-- Claim C1 (corrected): when `solve` returns `solved = False`, the grid
is restored only to the `original_grid` snapshot, which is taken after
the initial constraint-propagation phase; so the final grid equals the
post-propagation state, not necessarily the pre-call state. -/
theorem c1_solve_failure_grid_eq_propagation (g : Grid)
    (h : (solve g).solved = false) :
    (solve g).grid = (solvePropagation g).1 := by
  unfold solve at h ⊢
  by_cases h1 : (emptiesOf g).isEmpty
  · simp only [h1, if_true] at h ⊢
    exact (propLoop_of_no_empty h1 (countEmpty g) [] (emptiesOf g)).symm
  · simp only [h1, Bool.false_eq_true, if_false] at h ⊢
    by_cases h2 : (solvePropagation g).2.2.isEmpty
    · simp only [h2, if_true]
    · simp only [h2, Bool.false_eq_true, if_false] at h ⊢
      set res := backtrackGo
        (sort_by_constraints (solvePropagation g).1 (solvePropagation g).2.2).length
        0 (solvePropagation g).1 (solvePropagation g).2.1
        (sort_by_constraints (solvePropagation g).1 (solvePropagation g).2.2) with hres
      by_cases h3 : res.1 && is_valid res.2.1
      · simp only [h3, if_true] at h
        exact absurd h (by decide)
      · simp only [h3, Bool.false_eq_true, if_false]

/-- Witness for the corrected C1 at a concrete failing grid. -/
theorem c1_witness :
    (solve [[some 0, some 0], [none, none]]).grid =
      (solvePropagation [[some 0, some 0], [none, none]]).1 :=
  c1_solve_failure_grid_eq_propagation _ (by decide)

/-- Claim C6, counterexample: this input grid is not square (row 0 has
three cells but the grid has two rows), yet `solve` runs constraint
propagation on it — the moves log records a forced move, so solving was
not rejected before it began. -/
theorem c6_counterexample :
    (([[some 0, some 0, none], [none, none, none]] : Grid).getD 0 []).length ≠
      ([[some 0, some 0, none], [none, none, none]] : Grid).length ∧
    (solve [[some 0, some 0, none], [none, none, none]]).log ≠ [] := by
  constructor
  · decide
  · decide

/-- Claim C6 (corrected): the rejection of malformed grids is performed
by the validator, not by the solving engine; `_validate_puzzle_grid`
accepts a grid exactly when it has the declared square shape and every
cell is the empty marker, 0 or 1. -/
theorem c6_validator_rejects_malformed (expected : Nat) (puzzle : Grid) :
    validate_puzzle_grid expected puzzle = true ↔
      (puzzle.length = expected ∧ ∀ row ∈ puzzle, row.length = expected ∧
        ∀ cell ∈ row, cell = none ∨ cell = some 0 ∨ cell = some 1) := by
  unfold validate_puzzle_grid
  split
  case isTrue h =>
    simp only [List.all_eq_true, Bool.and_eq_true, beq_iff_eq, Bool.or_eq_true]
    constructor
    · intro hall
      refine ⟨h, fun row hrow => ⟨(hall row hrow).1, fun cell hcell => ?_⟩⟩
      have := (hall row hrow).2 cell hcell
      tauto
    · intro hh row hrow
      refine ⟨(hh.2 row hrow).1, fun cell hcell => ?_⟩
      have := (hh.2 row hrow).2 cell hcell
      tauto
  case isFalse h =>
    constructor
    · intro hh
      exact absurd hh (by decide)
    · intro hh
      exact absurd hh.1 h

/-- Claim C7, counterexample: an actual `solve` run fills a cell by
backtracking and logs `"... [Backtrack 1/4]"`; that entry contains none
of the claimed technique tags (`AvoidThree`, `Balance`,
`DuplicatePrevention`, `ForcedMove`, `Search`), and the ranker's
substring extractor classifies it as `"Unknown"`. -/
theorem c7_counterexample :
    (solve [[none, none], [none, none]]).log.getD 0 "" =
      "Set (A,1) = 0 [Backtrack 1/4]" ∧
    containsStr "Set (A,1) = 0 [Backtrack 1/4]" "AvoidThree" = false ∧
    containsStr "Set (A,1) = 0 [Backtrack 1/4]" "Balance" = false ∧
    containsStr "Set (A,1) = 0 [Backtrack 1/4]" "DuplicatePrevention" = false ∧
    containsStr "Set (A,1) = 0 [Backtrack 1/4]" "ForcedMove" = false ∧
    containsStr "Set (A,1) = 0 [Backtrack 1/4]" "Search" = false ∧
    extract_technique "Set (A,1) = 0 [Backtrack 1/4]" = "Unknown" := by
  refine ⟨by decide, by decide, by decide, by decide, by decide, by decide, by decide⟩

end Binairo

namespace Binairo

/-! ### Preservation of filled cells -/

/-- A propagation sweep never overwrites a filled cell. -/
theorem sweep_preserves_some {r c : Nat} {x : Int} :
    ∀ (cells : List (Nat × Nat)) (g : Grid) (p : Bool) (log : List String),
    getCell g r c = some x →
    getCell (sweep g p log cells).2.1 r c = some x := by
  intro cells
  induction cells with
  | nil => intro g p log hg; exact hg
  | cons hd rest ih =>
    intro g p log hg
    obtain ⟨r', c'⟩ := hd
    rw [sweep]
    by_cases hs : (getCell g r' c').isSome = true
    · rw [if_pos hs]
      exact ih g p log hg
    · rw [if_neg hs]
      have hne : (r', c') ≠ (r, c) := by
        intro hEq
        rw [show r' = r from congrArg Prod.fst hEq,
          show c' = c from congrArg Prod.snd hEq, hg] at hs
        exact hs rfl
      rcases hfilter : ([0, 1] : List Int).filter
          (fun v => is_valid_placement g r' c' v) with _ | ⟨v, _ | ⟨w, tl⟩⟩
      · exact hg
      · exact ih _ _ _ (by rw [getCell_setCell_ne hne]; exact hg)
      · exact ih g p log hg

/-- The propagation loop never overwrites a filled cell. -/
theorem propLoop_preserves_some {r c : Nat} {x : Int} :
    ∀ (fuel : Nat) (g : Grid) (log : List String) (emp : List (Nat × Nat)),
    getCell g r c = some x →
    getCell (propLoop fuel g log emp).1 r c = some x := by
  intro fuel
  induction fuel with
  | zero => intro g log emp hg; exact hg
  | succ fuel ih =>
    intro g log emp hg
    rw [propLoop]
    rcases hafm : apply_forced_moves g log with ⟨b, g', log'⟩
    have hg' : getCell g' r c = some x := by
      have h1 := sweep_preserves_some (allCells (gsize g)) g false log hg
      rw [show sweep g false log (allCells (gsize g)) = (b, g', log') from hafm]
        at h1
      exact h1
    cases b
    · exact hg'
    · exact ih g' log' _ hg'

/-- Backtracking only ever writes cells from its cell list. -/
theorem backtrackGo_preserves_other {r c : Nat} :
    ∀ (cells : List (Nat × Nat)) (total idx : Nat) (g : Grid)
      (log : List String), (r, c) ∉ cells →
    getCell (backtrackGo total idx g log cells).2.1 r c = getCell g r c := by
  intro cells
  induction cells with
  | nil => intro total idx g log _; rfl
  | cons hd rest ih =>
    intro total idx g log hni
    obtain ⟨r', c'⟩ := hd
    have hne : (r', c') ≠ (r, c) := by
      intro hEq
      exact hni (by rw [← hEq]; exact List.mem_cons_self _ _)
    have hrest : (r, c) ∉ rest := fun hmem => hni (List.mem_cons_of_mem _ hmem)
    rw [backtrackGo]
    have step2 : ∀ (g1 : Grid) (log1 : List String),
        getCell g1 r c = getCell g r c →
        getCell ((if is_valid_placement g1 r' c' 1 = true then
          match backtrackGo total (idx + 1) (setCell g1 r' c' (some 1))
              (log1 ++ [btString r' c' 1 idx total]) rest with
          | (true, g2, log2) => (true, g2, log2)
          | (false, g2, log2) =>
            (false, setCell g2 r' c' none, popMove log2 r' c' 1)
          else ((false, g1, log1) : Bool × Grid × List String)).2.1) r c =
          getCell g r c := by
      intro g1 log1 hg1
      by_cases hp1 : is_valid_placement g1 r' c' 1 = true
      · rw [if_pos hp1]
        rcases hrec : backtrackGo total (idx + 1) (setCell g1 r' c' (some 1))
            (log1 ++ [btString r' c' 1 idx total]) rest with ⟨ok, g2, log2⟩
        have hg2 : getCell g2 r c = getCell g r c := by
          have h1 := ih total (idx + 1) (setCell g1 r' c' (some 1))
            (log1 ++ [btString r' c' 1 idx total]) hrest
          rw [hrec] at h1
          rw [h1, getCell_setCell_ne hne, hg1]
        cases ok
        · exact (getCell_setCell_ne hne g2 none).trans hg2
        · exact hg2
      · rw [if_neg hp1]
        exact hg1
    by_cases hp0 : is_valid_placement g r' c' 0 = true
    · rw [if_pos hp0]
      rcases hrec : backtrackGo total (idx + 1) (setCell g r' c' (some 0))
          (log ++ [btString r' c' 0 idx total]) rest with ⟨ok, g2, log2⟩
      have hg2 : getCell g2 r c = getCell g r c := by
        have h1 := ih total (idx + 1) (setCell g r' c' (some 0))
          (log ++ [btString r' c' 0 idx total]) hrest
        rw [hrec] at h1
        rw [h1, getCell_setCell_ne hne]
      cases ok
      · exact step2 _ _ ((getCell_setCell_ne hne g2 none).trans hg2)
      · exact hg2
    · rw [if_neg hp0]
      exact step2 g log rfl

end Binairo

namespace Binairo

/-- The `empty_cells` list maintained by the propagation loop only
shrinks: anything still listed was listed at the start. -/
theorem propLoop_emp_mem :
    ∀ (fuel : Nat) (g : Grid) (log : List String) (emp : List (Nat × Nat))
      (rc : Nat × Nat), rc ∈ (propLoop fuel g log emp).2.2 → rc ∈ emp := by
  intro fuel
  induction fuel with
  | zero => intro g log emp rc h; exact h
  | succ fuel ih =>
    intro g log emp rc h
    rw [propLoop] at h
    rcases hafm : apply_forced_moves g log with ⟨b, g', log'⟩
    rw [hafm] at h
    cases b
    · exact h
    · exact List.mem_of_mem_filter (ih g' log' _ rc h)

theorem mem_emptiesOf {g : Grid} {rc : Nat × Nat} (h : rc ∈ emptiesOf g) :
    (getCell g rc.1 rc.2).isNone = true :=
  (List.mem_filter.mp h).2

/-- Inserting by key is a permutation of consing. -/
theorem insertByKey_perm (key : Nat × Nat → Nat) (x : Nat × Nat) :
    ∀ l, (insertByKey key x l).Perm (x :: l) := by
  intro l
  induction l with
  | nil => exact List.Perm.refl _
  | cons y t ih =>
    rw [insertByKey]
    by_cases hk : key y < key x
    · rw [if_pos hk]
      exact (ih.cons y).trans (List.Perm.swap x y t)
    · rw [if_neg hk]

/-- The stable sort permutes its input. -/
theorem sortByKey_perm (key : Nat × Nat → Nat) :
    ∀ l, (sortByKey key l).Perm l := by
  intro l
  induction l with
  | nil => exact List.Perm.refl _
  | cons x t ih =>
    rw [sortByKey]
    exact (insertByKey_perm key x (sortByKey key t)).trans (ih.cons x)

theorem mem_sort_by_constraints {g : Grid} {cells : List (Nat × Nat)}
    {rc : Nat × Nat} (h : rc ∈ sort_by_constraints g cells) : rc ∈ cells :=
  ((sortByKey_perm (constraint_count g) cells).mem_iff).mp h

/-- `count_solutions` returns the snapshot taken at the call. -/
theorem count_solutions_grid_eq (g : Grid) (max_count : Nat) :
    (count_solutions g max_count).2 = g := by
  unfold count_solutions
  by_cases h : (emptiesOf g).isEmpty <;> simp [h]

end Binairo

namespace Binairo

/-! ### The C9 preservation theorem -/

/-- Claim C9 (confirmed): every cell that is filled when `solve` or
`count_solutions` is invoked still holds the same value in the grid the
operation leaves behind, whether it succeeds or fails: propagation and
backtracking only ever assign cells that were empty, and the failure
paths restore snapshots that already contained the original clues. -/
theorem c9_clues_preserved (g : Grid) (m r c : Nat) (x : Int)
    (h : getCell g r c = some x) :
    getCell (solve g).grid r c = some x ∧
    getCell (count_solutions g m).2 r c = some x := by
  refine ⟨?_, by rw [count_solutions_grid_eq]; exact h⟩
  unfold solve
  by_cases h1 : (emptiesOf g).isEmpty
  · simp only [h1, if_true]
    exact h
  · simp only [h1, Bool.false_eq_true, if_false]
    have hp : getCell (solvePropagation g).1 r c = some x := by
      unfold solvePropagation
      exact propLoop_preserves_some _ g [] (emptiesOf g) h
    by_cases h2 : (solvePropagation g).2.2.isEmpty
    · simp only [h2, if_true]
      exact hp
    · simp only [h2, Bool.false_eq_true, if_false]
      set cells := sort_by_constraints (solvePropagation g).1 (solvePropagation g).2.2
        with hcells
      have hni : (r, c) ∉ cells := by
        intro hmem
        have h3 := mem_sort_by_constraints (hcells ▸ hmem)
        have h4 := propLoop_emp_mem _ g [] (emptiesOf g) (r, c) h3
        have h5 := mem_emptiesOf h4
        rw [h] at h5
        simp at h5
      have hback := backtrackGo_preserves_other cells cells.length 0
        (solvePropagation g).1 (solvePropagation g).2.1 hni
      by_cases h3 : (backtrackGo cells.length 0 (solvePropagation g).1
          (solvePropagation g).2.1 cells).1 &&
          is_valid (backtrackGo cells.length 0 (solvePropagation g).1
            (solvePropagation g).2.1 cells).2.1
      · simp only [h3, if_true]
        rw [hback]
        exact hp
      · simp only [h3, Bool.false_eq_true, if_false]
        exact hp

/-- Witness for C9 at a concrete grid and clue. -/
theorem c9_witness :
    getCell (solve [[some 0, none], [none, none]]).grid 0 0 = some 0 ∧
    getCell (count_solutions [[some 0, none], [none, none]] 2).2 0 0 = some 0 :=
  c9_clues_preserved [[some 0, none], [none, none]] 2 0 0 0 (by decide)

/-! ### The moves-log vocabulary (C7) -/

/-- A log entry is either a propagation entry or a backtracking entry. -/
def logEntryOK (e : String) : Prop :=
  (∃ r c v, e = forcedString r c v) ∨ ∃ r c v i t, e = btString r c v i t

theorem popMove_mem {log : List String} {r c : Nat} {v : Int} :
    ∀ e ∈ popMove log r c v, e ∈ log := by
  intro e he
  unfold popMove at he
  split at he
  · split at he
    · exact List.Sublist.mem he (List.dropLast_sublist log)
    · exact he
  · exact he

theorem sweep_log_ok :
    ∀ (cells : List (Nat × Nat)) (g : Grid) (p : Bool) (log : List String),
    (∀ e ∈ log, logEntryOK e) →
    ∀ e ∈ (sweep g p log cells).2.2, logEntryOK e := by
  intro cells
  induction cells with
  | nil => intro g p log hlog; exact hlog
  | cons hd rest ih =>
    intro g p log hlog
    obtain ⟨r', c'⟩ := hd
    rw [sweep]
    by_cases hs : (getCell g r' c').isSome = true
    · rw [if_pos hs]
      exact ih g p log hlog
    · rw [if_neg hs]
      rcases hfilter : ([0, 1] : List Int).filter
          (fun v => is_valid_placement g r' c' v) with _ | ⟨v, _ | ⟨w, tl⟩⟩
      · exact hlog
      · refine ih _ _ _ ?_
        intro e he
        rcases List.mem_append.mp he with h1 | h2
        · exact hlog e h1
        · rw [List.mem_singleton.mp h2]
          exact Or.inl ⟨r', c', v, rfl⟩
      · exact ih g p log hlog

theorem propLoop_log_ok :
    ∀ (fuel : Nat) (g : Grid) (log : List String) (emp : List (Nat × Nat)),
    (∀ e ∈ log, logEntryOK e) →
    ∀ e ∈ (propLoop fuel g log emp).2.1, logEntryOK e := by
  intro fuel
  induction fuel with
  | zero => intro g log emp hlog; exact hlog
  | succ fuel ih =>
    intro g log emp hlog
    rw [propLoop]
    rcases hafm : apply_forced_moves g log with ⟨b, g', log'⟩
    have hlog' : ∀ e ∈ log', logEntryOK e := by
      have h1 := sweep_log_ok (allCells (gsize g)) g false log hlog
      rw [show sweep g false log (allCells (gsize g)) = (b, g', log') from hafm]
        at h1
      exact h1
    cases b
    · exact hlog'
    · exact ih g' log' _ hlog'

theorem backtrackGo_log_ok :
    ∀ (cells : List (Nat × Nat)) (total idx : Nat) (g : Grid)
      (log : List String), (∀ e ∈ log, logEntryOK e) →
    ∀ e ∈ (backtrackGo total idx g log cells).2.2, logEntryOK e := by
  intro cells
  induction cells with
  | nil => intro total idx g log hlog; exact hlog
  | cons hd rest ih =>
    intro total idx g log hlog
    obtain ⟨r', c'⟩ := hd
    rw [backtrackGo]
    have append_ok : ∀ (log1 : List String) (v : Int),
        (∀ e ∈ log1, logEntryOK e) →
        ∀ e ∈ log1 ++ [btString r' c' v idx total], logEntryOK e := by
      intro log1 v hlog1 e he
      rcases List.mem_append.mp he with h1 | h2
      · exact hlog1 e h1
      · rw [List.mem_singleton.mp h2]
        exact Or.inr ⟨r', c', v, idx, total, rfl⟩
    have step2 : ∀ (g1 : Grid) (log1 : List String),
        (∀ e ∈ log1, logEntryOK e) →
        ∀ e ∈ ((if is_valid_placement g1 r' c' 1 = true then
          match backtrackGo total (idx + 1) (setCell g1 r' c' (some 1))
              (log1 ++ [btString r' c' 1 idx total]) rest with
          | (true, g2, log2) => (true, g2, log2)
          | (false, g2, log2) =>
            (false, setCell g2 r' c' none, popMove log2 r' c' 1)
          else ((false, g1, log1) : Bool × Grid × List String)).2.2),
          logEntryOK e := by
      intro g1 log1 hlog1
      by_cases hp1 : is_valid_placement g1 r' c' 1 = true
      · rw [if_pos hp1]
        rcases hrec : backtrackGo total (idx + 1) (setCell g1 r' c' (some 1))
            (log1 ++ [btString r' c' 1 idx total]) rest with ⟨ok, g2, log2⟩
        have hlog2 : ∀ e ∈ log2, logEntryOK e := by
          have h1 := ih total (idx + 1) (setCell g1 r' c' (some 1))
            (log1 ++ [btString r' c' 1 idx total]) (append_ok log1 1 hlog1)
          rw [hrec] at h1
          exact h1
        cases ok
        · exact fun e he => hlog2 e (popMove_mem e he)
        · exact hlog2
      · rw [if_neg hp1]
        exact hlog1
    by_cases hp0 : is_valid_placement g r' c' 0 = true
    · rw [if_pos hp0]
      rcases hrec : backtrackGo total (idx + 1) (setCell g r' c' (some 0))
          (log ++ [btString r' c' 0 idx total]) rest with ⟨ok, g2, log2⟩
      have hlog2 : ∀ e ∈ log2, logEntryOK e := by
        have h1 := ih total (idx + 1) (setCell g r' c' (some 0))
          (log ++ [btString r' c' 0 idx total]) (append_ok log 0 hlog)
        rw [hrec] at h1
        exact h1
      cases ok
      · exact step2 _ _ fun e he => hlog2 e (popMove_mem e he)
      · exact hlog2
    · rw [if_neg hp0]
      exact step2 g log hlog

/-- Claim C7 (corrected): every entry appended to the moves log during a
`solve` invocation is either a propagation entry, tagged
`[Forced by constraints]`, or a backtracking entry, tagged
`[Backtrack i/n]`; no other form of entry is ever logged. -/
theorem c7_log_entries_forced_or_backtrack (g : Grid) (e : String)
    (h : e ∈ (solve g).log) : logEntryOK e := by
  unfold solve at h
  by_cases h1 : (emptiesOf g).isEmpty
  · simp only [h1, if_true] at h
    exact absurd h (List.not_mem_nil e)
  · simp only [h1, Bool.false_eq_true, if_false] at h
    have hplog : ∀ e ∈ (solvePropagation g).2.1, logEntryOK e := by
      unfold solvePropagation
      exact propLoop_log_ok _ g [] (emptiesOf g)
        (fun e he => absurd he (List.not_mem_nil e))
    by_cases h2 : (solvePropagation g).2.2.isEmpty
    · simp only [h2, if_true] at h
      exact hplog e h
    · simp only [h2, Bool.false_eq_true, if_false] at h
      set cells := sort_by_constraints (solvePropagation g).1 (solvePropagation g).2.2
        with hcells
      have hback := backtrackGo_log_ok cells cells.length 0
        (solvePropagation g).1 (solvePropagation g).2.1 hplog
      by_cases h3 : (backtrackGo cells.length 0 (solvePropagation g).1
          (solvePropagation g).2.1 cells).1 &&
          is_valid (backtrackGo cells.length 0 (solvePropagation g).1
            (solvePropagation g).2.1 cells).2.1
      · simp only [h3, if_true] at h
        exact hback e h
      · simp only [h3, Bool.false_eq_true, if_false] at h
        exact hback e h

/-- Witness for the corrected C7: the first entry of a concrete
backtracking run is of the backtracking form. -/
theorem c7_witness : logEntryOK "Set (A,1) = 0 [Backtrack 1/4]" :=
  c7_log_entries_forced_or_backtrack [[none, none], [none, none]] _ (by decide)

end Binairo

namespace Binairo

/-! ### Termination of the solver (C8) -/

theorem countP_lt_of_mem {α : Type _} {l : List α} {p q : α → Bool}
    (hpt : ∀ a ∈ l, q a = true → p a = true) {a : α} (ha : a ∈ l)
    (hp : p a = true) (hq : q a = false) : l.countP q < l.countP p := by
  induction l with
  | nil => exact absurd ha (List.not_mem_nil a)
  | cons b t ih =>
    rw [List.countP_cons, List.countP_cons]
    have hmono : t.countP q ≤ t.countP p :=
      List.countP_mono_left fun x hx => hpt x (List.mem_cons_of_mem b hx)
    rcases List.mem_cons.mp ha with heq | hat
    · have e1 : (if q b = true then 1 else 0) = 0 := by
        rw [← heq, hq]; simp
      have e2 : (if p b = true then 1 else 0) = 1 := by
        rw [← heq, hp]; simp
      rw [e1, e2]
      omega
    · have hlt := ih (fun x hx h => hpt x (List.mem_cons_of_mem b hx) h) hat
      have hbit : (if q b = true then 1 else 0) ≤ if p b = true then 1 else 0 := by
        by_cases hqb : q b = true
        · rw [if_pos hqb, if_pos (hpt b (List.mem_cons_self b t) hqb)]
        · simp [hqb]
      omega

/-- `countEmpty` counts the empty positions in the canonical scan. -/
theorem countEmpty_eq_countP (g : Grid) :
    countEmpty g = (allCells (gsize g)).countP
      fun rc => (getCell g rc.1 rc.2).isNone := by
  rw [countEmpty, emptiesOf, List.countP_eq_length_filter]

theorem mem_allCells {n : Nat} {rc : Nat × Nat} :
    rc ∈ allCells n ↔ rc.1 < n ∧ rc.2 < n := by
  obtain ⟨r, c⟩ := rc
  rw [allCells, List.mem_product, List.mem_range, List.mem_range]

/-- Writing a value into an in-range empty cell strictly decreases the
number of empty cells. -/
theorem countEmpty_setCell_lt {n : Nat} {g : Grid} (hwf : WF n g) {r c : Nat}
    (hr : r < n) (hc : c < n) (hnone : getCell g r c = none) (v : Int) :
    countEmpty (setCell g r c (some v)) < countEmpty g := by
  rw [countEmpty_eq_countP, countEmpty_eq_countP, gsize_setCell]
  refine countP_lt_of_mem (a := (r, c)) ?_ ?_ ?_ ?_
  · intro rc _ hq
    by_cases hrc : (r, c) = rc
    · rw [← hrc] at hq
      rw [getCell_setCell_eq hwf hr hc] at hq
      exact absurd hq (by simp)
    · rw [getCell_setCell_ne hrc] at hq
      exact hq
  · rw [mem_allCells]
    rw [show gsize g = n from hwf.1]
    exact ⟨hr, hc⟩
  · rw [hnone]; rfl
  · rw [getCell_setCell_eq hwf hr hc]; rfl

/-- A sweep preserves well-formedness, never increases the number of
empty cells, and reports progress only if it strictly decreased that
number (or the flag was already set). -/
theorem sweep_progress {n : Nat} :
    ∀ (cells : List (Nat × Nat)) (g : Grid) (p : Bool) (log : List String),
    WF n g → (∀ rc ∈ cells, rc.1 < n ∧ rc.2 < n) →
    WF n (sweep g p log cells).2.1 ∧
    countEmpty (sweep g p log cells).2.1 ≤ countEmpty g ∧
    ((sweep g p log cells).1 = true →
      p = true ∨ countEmpty (sweep g p log cells).2.1 < countEmpty g) := by
  intro cells
  induction cells with
  | nil =>
    intro g p log hwf _
    exact ⟨hwf, Nat.le_refl _, fun h => Or.inl h⟩
  | cons hd rest ih =>
    intro g p log hwf hmem
    obtain ⟨r', c'⟩ := hd
    have hr' : r' < n := (hmem (r', c') (List.mem_cons_self _ _)).1
    have hc' : c' < n := (hmem (r', c') (List.mem_cons_self _ _)).2
    have hmemr : ∀ rc ∈ rest, rc.1 < n ∧ rc.2 < n :=
      fun rc hrc => hmem rc (List.mem_cons_of_mem _ hrc)
    rw [sweep]
    by_cases hs : (getCell g r' c').isSome = true
    · rw [if_pos hs]
      exact ih g p log hwf hmemr
    · rw [if_neg hs]
      have hnone : getCell g r' c' = none := Option.not_isSome_iff_eq_none.mp hs
      rcases hfilter : ([0, 1] : List Int).filter
          (fun v => is_valid_placement g r' c' v) with _ | ⟨v, _ | ⟨w, tl⟩⟩
      · exact ⟨hwf, Nat.le_refl _, fun h => Bool.noConfusion h⟩
      · have hlt := countEmpty_setCell_lt hwf hr' hc' hnone v
        have hwf' := WF_setCell hwf r' c' (some v)
        obtain ⟨h1, h2, _⟩ := ih (setCell g r' c' (some v)) true
          (log ++ [forcedString r' c' v]) hwf' hmemr
        refine ⟨h1, ?_, fun _ => Or.inr ?_⟩
        · show countEmpty (sweep (setCell g r' c' (some v)) true
            (log ++ [forcedString r' c' v]) rest).2.1 ≤ countEmpty g
          omega
        · show countEmpty (sweep (setCell g r' c' (some v)) true
            (log ++ [forcedString r' c' v]) rest).2.1 < countEmpty g
          omega
      · exact ih g p log hwf hmemr

/-- `_apply_forced_moves`: progress means the empty-cell count strictly
decreased, and well-formedness is preserved. -/
theorem apply_forced_moves_progress {n : Nat} {g : Grid} (hwf : WF n g)
    (log : List String) :
    WF n (apply_forced_moves g log).2.1 ∧
    countEmpty (apply_forced_moves g log).2.1 ≤ countEmpty g ∧
    ((apply_forced_moves g log).1 = true →
      countEmpty (apply_forced_moves g log).2.1 < countEmpty g) := by
  have h := sweep_progress (n := n) (allCells (gsize g)) g false log hwf
    (fun rc hrc => by
      rw [mem_allCells] at hrc
      rw [show gsize g = n from hwf.1] at hrc
      exact hrc)
  refine ⟨h.1, h.2.1, fun hp => ?_⟩
  rcases h.2.2 hp with h1 | h2
  · exact absurd h1 (by decide)
  · exact h2

/-- Any two sufficient fuels give the propagation loop the same result:
the loop stabilises within `countEmpty g + 1` sweeps. -/
theorem propLoop_congr {n : Nat} :
    ∀ (bound : Nat) (g : Grid) (log : List String) (emp : List (Nat × Nat))
      (f1 f2 : Nat), WF n g → countEmpty g ≤ bound →
      countEmpty g < f1 → countEmpty g < f2 →
      propLoop f1 g log emp = propLoop f2 g log emp := by
  intro bound
  induction bound with
  | zero =>
    intro g log emp f1 f2 hwf hb h1 h2
    obtain ⟨f1', rfl⟩ : ∃ f1', f1 = f1' + 1 := ⟨f1 - 1, by omega⟩
    obtain ⟨f2', rfl⟩ : ∃ f2', f2 = f2' + 1 := ⟨f2 - 1, by omega⟩
    rw [propLoop, propLoop]
    rcases hafm : apply_forced_moves g log with ⟨b, g', log'⟩
    cases b
    · rfl
    · have hprog := (apply_forced_moves_progress hwf log).2.2
      rw [hafm] at hprog
      have hlt : countEmpty g' < countEmpty g := hprog rfl
      omega
  | succ bound ih =>
    intro g log emp f1 f2 hwf hb h1 h2
    obtain ⟨f1', rfl⟩ : ∃ f1', f1 = f1' + 1 := ⟨f1 - 1, by omega⟩
    obtain ⟨f2', rfl⟩ : ∃ f2', f2 = f2' + 1 := ⟨f2 - 1, by omega⟩
    rw [propLoop, propLoop]
    rcases hafm : apply_forced_moves g log with ⟨b, g', log'⟩
    cases b
    · rfl
    · have hprog := apply_forced_moves_progress hwf log
      rw [hafm] at hprog
      have hlt : countEmpty g' < countEmpty g := hprog.2.2 rfl
      have hwfg' : WF n g' := hprog.1
      exact ih g' log' _ f1' f2' hwfg' (by omega) (by omega) (by omega)

/-- The propagation loop only ever filters the `empty_cells` list. -/
theorem propLoop_emp_length :
    ∀ (fuel : Nat) (g : Grid) (log : List String) (emp : List (Nat × Nat)),
    (propLoop fuel g log emp).2.2.length ≤ emp.length := by
  intro fuel
  induction fuel with
  | zero => intro g log emp; exact Nat.le_refl _
  | succ fuel ih =>
    intro g log emp
    rw [propLoop]
    rcases hafm : apply_forced_moves g log with ⟨b, g', log'⟩
    cases b
    · exact Nat.le_refl _
    · exact Nat.le_trans (ih g' log' _)
        (List.Sublist.length_le (List.filter_sublist emp))

/-- Claim C8 (confirmed): `solve` terminates on every well-formed grid.
Each productive `_apply_forced_moves` sweep strictly decreases the
empty-cell count, which is bounded by `n * n`, so the propagation loop
stabilises within `countEmpty g + 1` iterations (extra fuel changes
nothing); and the backtracking recursion is structural over the
remaining empty-cell list, whose length the loop only ever shrinks, so
its depth is bounded by the number of empty cells. -/
theorem c8_solver_terminates (n : Nat) (g : Grid) (log : List String)
    (hwf : WF n g) :
    ((apply_forced_moves g log).1 = true →
      countEmpty (apply_forced_moves g log).2.1 < countEmpty g) ∧
    countEmpty g ≤ n * n ∧
    (∀ k emp, propLoop (countEmpty g + 1 + k) g log emp =
      propLoop (countEmpty g + 1) g log emp) ∧
    (∀ fuel emp, (propLoop fuel g log emp).2.2.length ≤ emp.length) ∧
    (emptiesOf g).length = countEmpty g := by
  refine ⟨(apply_forced_moves_progress hwf log).2.2, ?_, ?_, ?_, rfl⟩
  · rw [countEmpty_eq_countP]
    calc (allCells (gsize g)).countP _ ≤ (allCells (gsize g)).length :=
          List.countP_le_length _
      _ = n * n := by
          rw [allCells, List.length_product, List.length_range]
          rw [show gsize g = n from hwf.1]
  · intro k emp
    exact propLoop_congr (countEmpty g) g log emp _ _ hwf (Nat.le_refl _)
      (by omega) (by omega)
  · intro fuel emp
    exact propLoop_emp_length fuel g log emp

/-- Witness for C8 at a concrete well-formed grid. -/
theorem c8_witness :
    ((apply_forced_moves [[some 0, none], [none, none]] []).1 = true →
      countEmpty (apply_forced_moves [[some 0, none], [none, none]] []).2.1 <
        countEmpty [[some 0, none], [none, none]]) ∧
    countEmpty [[some 0, none], [none, none]] ≤ 2 * 2 ∧
    (∀ k emp, propLoop (countEmpty [[some 0, none], [none, none]] + 1 + k)
        [[some 0, none], [none, none]] [] emp =
      propLoop (countEmpty [[some 0, none], [none, none]] + 1)
        [[some 0, none], [none, none]] [] emp) ∧
    (∀ fuel emp, (propLoop fuel [[some 0, none], [none, none]] [] emp).2.2.length ≤
      emp.length) ∧
    (emptiesOf [[some 0, none], [none, none]]).length =
      countEmpty [[some 0, none], [none, none]] :=
  c8_solver_terminates 2 [[some 0, none], [none, none]] []
    (by constructor <;> decide)

end Binairo

namespace Binairo

/-! ### Local placement validity (C5) -/

/-- The row list `self.grid[r]`. -/
def rowOf (g : Grid) (r : Nat) : List Cell := g.getD r []

theorem mem_winRange {n i s : Nat} :
    s ∈ winRange n i ↔ i ≤ s + 2 ∧ s ≤ i ∧ s + 2 < n := by
  rw [winRange, List.mem_range'_1]
  omega

theorem tripleBadRow_eq_false_iff {g : Grid} {r s : Nat} :
    tripleBadRow g r s = false ↔
      ¬∃ x : Int, getCell g r s = some x ∧ getCell g r (s+1) = some x ∧
        getCell g r (s+2) = some x := by
  unfold tripleBadRow
  constructor
  · intro h
    rintro ⟨y, hy1, hy2, hy3⟩
    rw [hy1, hy2, hy3] at h
    simp at h
  · intro h
    by_contra hb
    rw [Bool.not_eq_false, Bool.and_eq_true, Bool.and_eq_true] at hb
    obtain ⟨⟨hsome, heq1⟩, heq2⟩ := hb
    rw [beq_iff_eq] at heq1 heq2
    obtain ⟨x, hx⟩ := Option.isSome_iff_exists.mp hsome
    have h1 : getCell g r (s+1) = some x := heq1.symm.trans hx
    have h2 : getCell g r (s+2) = some x := heq2.symm.trans h1
    exact h ⟨x, hx, h1, h2⟩

theorem tripleBadCol_eq_false_iff {g : Grid} {c s : Nat} :
    tripleBadCol g c s = false ↔
      ¬∃ x : Int, getCell g s c = some x ∧ getCell g (s+1) c = some x ∧
        getCell g (s+2) c = some x := by
  unfold tripleBadCol
  constructor
  · intro h
    rintro ⟨y, hy1, hy2, hy3⟩
    rw [hy1, hy2, hy3] at h
    simp at h
  · intro h
    by_contra hb
    rw [Bool.not_eq_false, Bool.and_eq_true, Bool.and_eq_true] at hb
    obtain ⟨⟨hsome, heq1⟩, heq2⟩ := hb
    rw [beq_iff_eq] at heq1 heq2
    obtain ⟨x, hx⟩ := Option.isSome_iff_exists.mp hsome
    have h1 : getCell g (s+1) c = some x := heq1.symm.trans hx
    have h2 : getCell g (s+2) c = some x := heq2.symm.trans h1
    exact h ⟨x, hx, h1, h2⟩

/-- Element counting over a list of known length equals predicate
counting over its index range. -/
theorem count_eq_countP_range {line : List Cell} :
    ∀ {n : Nat}, line.length = n → ∀ v : Cell,
    line.count v = (List.range n).countP fun i => line.getD i none == v := by
  induction line with
  | nil =>
    intro n hlen v
    subst hlen
    rfl
  | cons a t ih =>
    intro n hlen v
    subst hlen
    rw [List.length_cons, List.range_succ_eq_map, List.count_cons,
      List.countP_cons, List.countP_map]
    have h1 : t.count v =
        (List.range t.length).countP fun i => t.getD i none == v := ih rfl v
    have h2 : (List.range t.length).countP
          ((fun i => (a :: t).getD i none == v) ∘ Nat.succ) =
        (List.range t.length).countP fun i => t.getD i none == v := by
      refine List.countP_congr ?_
      intro i _
      rfl
    simp only [List.getD_cons_zero, h2]
    omega

theorem colList_length (g : Grid) (c : Nat) : (colList g c).length = gsize g := by
  rw [colList, List.length_map, List.length_range]

theorem colList_getD {g : Grid} {c r : Nat} (hr : r < gsize g) :
    (colList g c).getD r none = getCell g r c := by
  rw [colList, getD_eq_getElem (by rw [List.length_map, List.length_range]; exact hr)]
  rw [List.getElem_map, List.getElem_range]

theorem rowOf_length {n : Nat} {g : Grid} (hwf : WF n g) {r : Nat} (hr : r < n) :
    (rowOf g r).length = n := by
  obtain ⟨hl, hrows⟩ := hwf
  rw [rowOf, getD_eq_getElem (by omega : r < g.length)]
  exact hrows _ (List.getElem_mem _)

/-- The local constraints of the specification: with `value` written at
`(r, c)`, no 3-cell row or column window through `(r, c)` holds three
equal non-empty values, and the count of `value` in row `r` and in
column `c` does not exceed `half`. -/
def specPlacementOK (n : Nat) (g : Grid) (r c : Nat) (value : Int) : Prop :=
  (∀ s, s ≤ c → c ≤ s + 2 → s + 2 < n →
    ¬∃ x : Int, getCell (setCell g r c (some value)) r s = some x ∧
      getCell (setCell g r c (some value)) r (s+1) = some x ∧
      getCell (setCell g r c (some value)) r (s+2) = some x) ∧
  (∀ s, s ≤ r → r ≤ s + 2 → s + 2 < n →
    ¬∃ x : Int, getCell (setCell g r c (some value)) s c = some x ∧
      getCell (setCell g r c (some value)) (s+1) c = some x ∧
      getCell (setCell g r c (some value)) (s+2) c = some x) ∧
  (rowOf (setCell g r c (some value)) r).count (some value) ≤ n / 2 ∧
  (colList (setCell g r c (some value)) c).count (some value) ≤ n / 2

/-- Claim C5 (confirmed): `_is_valid_placement` checks exactly the local
constraints — no 3-window through `(r, c)` becomes all-equal and the
running counts of `value` in row `r` and column `c` stay within
`half_size` — and the simulate-and-restore mutation nets to nothing: the
grid after the call equals the grid before it. -/
theorem c5_placement_valid_iff_and_restores (n : Nat) (g : Grid) (r c : Nat)
    (value : Int) (hwf : WF n g) (hr : r < n) (hc : c < n)
    (hval : value = 0 ∨ value = 1) :
    (is_valid_placement_run g r c value).2 = g ∧
    (is_valid_placement g r c value = true ↔ specPlacementOK n g r c value) := by
  have hn : gsize g = n := hwf.1
  have hwf1 : WF n (setCell g r c (some value)) := WF_setCell hwf r c _
  have hn1 : gsize (setCell g r c (some value)) = n := hwf1.1
  have hhalf : halfSize g = n / 2 := by rw [halfSize, hn]
  constructor
  · show setCell (setCell g r c (some value)) r c (getCell g r c) = g
    rw [setCell_setCell, setCell_getCell]
  · unfold is_valid_placement
    simp only [Bool.and_eq_true, Bool.not_eq_true', Bool.or_eq_false_iff,
      decide_eq_false_iff_not, Nat.not_lt, List.all_eq_true, hn]
    unfold specPlacementOK
    constructor
    · rintro ⟨⟨hrow, hcol⟩, hcnt1, hcnt2⟩
      refine ⟨?_, ?_, ?_, ?_⟩
      · intro s h1 h2 h3
        have hmem : s ∈ winRange n c := mem_winRange.mpr ⟨h2, h1, h3⟩
        exact tripleBadRow_eq_false_iff.mp (hrow s hmem)
      · intro s h1 h2 h3
        have hmem : s ∈ winRange n r := mem_winRange.mpr ⟨h2, h1, h3⟩
        exact tripleBadCol_eq_false_iff.mp (hcol s hmem)
      · rw [count_eq_countP_range (rowOf_length hwf1 hr) (some value), ← hhalf]
        exact hcnt1
      · rw [count_eq_countP_range ((colList_length _ c).trans hn1) (some value),
          ← hhalf]
        have hcong : (List.range n).countP
              (fun i => (colList (setCell g r c (some value)) c).getD i none ==
                some value) =
            (List.range n).countP
              (fun i => getCell (setCell g r c (some value)) i c == some value) := by
          refine List.countP_congr ?_
          intro i hi
          rw [List.mem_range] at hi
          rw [colList_getD (by omega : i < gsize (setCell g r c (some value)))]
        rw [hcong]
        exact hcnt2
    · rintro ⟨hrow, hcol, hcnt1, hcnt2⟩
      refine ⟨⟨?_, ?_⟩, ?_, ?_⟩
      · intro s hmem
        rw [mem_winRange] at hmem
        exact tripleBadRow_eq_false_iff.mpr (hrow s hmem.2.1 hmem.1 hmem.2.2)
      · intro s hmem
        rw [mem_winRange] at hmem
        exact tripleBadCol_eq_false_iff.mpr (hcol s hmem.2.1 hmem.1 hmem.2.2)
      · rw [count_eq_countP_range (rowOf_length hwf1 hr) (some value)] at hcnt1
        rw [hhalf]
        exact hcnt1
      · rw [count_eq_countP_range ((colList_length _ c).trans hn1) (some value)]
          at hcnt2
        have hcong : (List.range n).countP
              (fun i => (colList (setCell g r c (some value)) c).getD i none ==
                some value) =
            (List.range n).countP
              (fun i => getCell (setCell g r c (some value)) i c == some value) := by
          refine List.countP_congr ?_
          intro i hi
          rw [List.mem_range] at hi
          rw [colList_getD (by omega : i < gsize (setCell g r c (some value)))]
        rw [hcong] at hcnt2
        rw [hhalf]
        exact hcnt2

/-- Witness for C5 at a concrete in-range placement. -/
theorem c5_witness :
    (is_valid_placement_run [[some 0, some 0], [none, none]] 1 0 1).2 =
      [[some 0, some 0], [none, none]] ∧
    (is_valid_placement [[some 0, some 0], [none, none]] 1 0 1 = true ↔
      specPlacementOK 2 [[some 0, some 0], [none, none]] 1 0 1) :=
  c5_placement_valid_iff_and_restores 2 [[some 0, some 0], [none, none]] 1 0 1
    (by constructor <;> decide) (by decide) (by decide) (Or.inr rfl)

end Binairo

namespace Binairo

/-! ### Full validity (C4) -/

theorem is_complete_iff {n : Nat} {g : Grid} (hwf : WF n g) :
    is_complete g = true ↔
      ∀ r, r < n → ∀ c, c < n → (getCell g r c).isSome = true := by
  unfold is_complete
  rw [show gsize g = n from hwf.1]
  simp [List.all_eq_true, List.mem_range]

/-- The per-line check of `is_valid`, in specification form, for a line
of known length with no empty entries. -/
theorem lineValid_iff {g : Grid} {n : Nat} (hn : gsize g = n)
    {line : List Cell} (hlen : line.length = n)
    (hsome : ∀ i, i < n → (line.getD i none).isSome = true) :
    lineValid g line = true ↔
      (line.count (some 0) = n / 2 ∧ line.count (some 1) = n / 2 ∧
        ∀ i, i + 2 < n → ¬∃ x : Int, line.getD i none = some x ∧
          line.getD (i+1) none = some x ∧ line.getD (i+2) none = some x) := by
  unfold lineValid
  rw [halfSize, hn]
  simp only [Bool.and_eq_true, beq_iff_eq, List.all_eq_true, List.mem_range]
  constructor
  · rintro ⟨⟨h0, h1⟩, htr⟩
    refine ⟨h0, h1, ?_⟩
    intro i hi
    rintro ⟨x, hx1, hx2, hx3⟩
    have h2 := htr i (by omega)
    rw [Bool.not_eq_true', Bool.and_eq_false_iff] at h2
    rcases h2 with h2 | h2 <;> rw [beq_eq_false_iff_ne] at h2
    · exact h2 (hx1.trans hx2.symm)
    · exact h2 (hx2.trans hx3.symm)
  · rintro ⟨h0, h1, htr⟩
    refine ⟨⟨h0, h1⟩, ?_⟩
    intro i hi
    rw [Bool.not_eq_true', Bool.and_eq_false_iff]
    by_cases he : line.getD i none = line.getD (i+1) none
    · refine Or.inr ?_
      rw [beq_eq_false_iff_ne]
      intro he2
      obtain ⟨x, hx⟩ := Option.isSome_iff_exists.mp (hsome i (by omega))
      have hx2 : line.getD (i+1) none = some x := he.symm.trans hx
      have hx3 : line.getD (i+2) none = some x := he2.symm.trans hx2
      exact htr i (by omega) ⟨x, hx, hx2, hx3⟩
    · exact Or.inl (by rw [beq_eq_false_iff_ne]; exact he)

/-- The upper-triangle double loop used for the duplicate checks. -/
theorem distinct_aux {n : Nat} {p : Nat → Nat → Bool} :
    (((List.range n).all fun a =>
      (List.range' (a + 1) (n - (a + 1))).all fun b => p a b) = true) ↔
    ∀ a b, a < b → b < n → p a b = true := by
  rw [all_range_iff]
  constructor
  · intro h a b hab hbn
    exact (all_range'_iff.mp (h a (by omega))) b (by omega) (by omega)
  · intro h a ha
    rw [all_range'_iff]
    intro b hb1 hb2
    exact h a b (by omega) (by omega)

/-- "No cell is Empty." -/
def specComplete (n : Nat) (g : Grid) : Prop :=
  ∀ r, r < n → ∀ c, c < n → (getCell g r c).isSome = true

/-- "Every row and every column contains exactly half zeros and half
ones." -/
def specBalanced (n : Nat) (g : Grid) : Prop :=
  (∀ r, r < n → (rowOf g r).count (some 0) = n / 2 ∧
    (rowOf g r).count (some 1) = n / 2) ∧
  (∀ c, c < n → (colList g c).count (some 0) = n / 2 ∧
    (colList g c).count (some 1) = n / 2)

/-- "No row or column contains three consecutive equal values." -/
def specNoTriple (n : Nat) (g : Grid) : Prop :=
  (∀ r, r < n → ∀ i, i + 2 < n → ¬∃ x : Int, getCell g r i = some x ∧
    getCell g r (i+1) = some x ∧ getCell g r (i+2) = some x) ∧
  (∀ c, c < n → ∀ i, i + 2 < n → ¬∃ x : Int, getCell g i c = some x ∧
    getCell g (i+1) c = some x ∧ getCell g (i+2) c = some x)

/-- "All rows are pairwise distinct and all columns are pairwise
distinct." -/
def specDistinct (n : Nat) (g : Grid) : Prop :=
  (∀ r1 r2, r1 < r2 → r2 < n → rowOf g r1 ≠ rowOf g r2) ∧
  (∀ c1 c2, c1 < c2 → c2 < n → colList g c1 ≠ colList g c2)

/-- Claim C4 (confirmed): for a well-formed `n × n` grid with `n` even,
`is_valid` returns true exactly when the grid is complete, every row and
column holds exactly `n/2` zeros and `n/2` ones, no row or column has
three consecutive equal values, and rows and columns are pairwise
distinct. -/
theorem c4_is_valid_iff (n : Nat) (g : Grid) (hwf : WF n g)
    (heven : n % 2 = 0) :
    is_valid g = true ↔
      specComplete n g ∧ specBalanced n g ∧ specNoTriple n g ∧
        specDistinct n g := by
  have hn : gsize g = n := hwf.1
  unfold is_valid
  rw [show gsize g = n from hn]
  simp only [Bool.and_eq_true]
  constructor
  · rintro ⟨⟨⟨⟨hA, hB⟩, hC⟩, hD⟩, hE⟩
    have hcomp : specComplete n g := (is_complete_iff hwf).mp hA
    rw [all_range_iff] at hB hC
    refine ⟨hcomp, ⟨?_, ?_⟩, ⟨?_, ?_⟩, ?_, ?_⟩
    · intro r hr
      have h1 := (lineValid_iff hn (rowOf_length hwf hr)
        (fun i hi => hcomp r hr i hi)).mp (hB r hr)
      exact ⟨h1.1, h1.2.1⟩
    · intro c hc
      have h1 := (lineValid_iff hn ((colList_length g c).trans hn)
        (fun i hi => by
          rw [colList_getD (by omega : i < gsize g)]
          exact hcomp i hi c hc)).mp (hC c hc)
      exact ⟨h1.1, h1.2.1⟩
    · intro r hr i hi
      exact (lineValid_iff hn (rowOf_length hwf hr)
        (fun j hj => hcomp r hr j hj)).mp (hB r hr) |>.2.2 i hi
    · intro c hc i hi
      have h1 := (lineValid_iff hn ((colList_length g c).trans hn)
        (fun j hj => by
          rw [colList_getD (by omega : j < gsize g)]
          exact hcomp j hj c hc)).mp (hC c hc) |>.2.2 i hi
      rw [colList_getD (by omega : i < gsize g),
        colList_getD (by omega : i + 1 < gsize g),
        colList_getD (by omega : i + 2 < gsize g)] at h1
      exact h1
    · intro r1 r2 h12 h2n
      have h1 := distinct_aux.mp hD r1 r2 h12 h2n
      rw [Bool.not_eq_true', beq_eq_false_iff_ne] at h1
      exact h1
    · intro c1 c2 h12 h2n
      have h1 := distinct_aux.mp hE c1 c2 h12 h2n
      rw [Bool.not_eq_true', beq_eq_false_iff_ne] at h1
      exact h1
  · rintro ⟨hcomp, ⟨hbr, hbc⟩, ⟨htr, htc⟩, hdr, hdc⟩
    have hA : is_complete g = true := (is_complete_iff hwf).mpr hcomp
    refine ⟨⟨⟨⟨hA, ?_⟩, ?_⟩, ?_⟩, ?_⟩
    · rw [all_range_iff]
      intro r hr
      exact (lineValid_iff hn (rowOf_length hwf hr)
        (fun i hi => hcomp r hr i hi)).mpr
        ⟨(hbr r hr).1, (hbr r hr).2, fun i hi => htr r hr i hi⟩
    · rw [all_range_iff]
      intro c hc
      refine (lineValid_iff hn ((colList_length g c).trans hn)
        (fun i hi => by
          rw [colList_getD (by omega : i < gsize g)]
          exact hcomp i hi c hc)).mpr
        ⟨(hbc c hc).1, (hbc c hc).2, fun i hi => ?_⟩
      have h1 := htc c hc i hi
      rw [← colList_getD (by omega : i < gsize g),
        ← colList_getD (by omega : i + 1 < gsize g),
        ← colList_getD (by omega : i + 2 < gsize g)] at h1
      exact h1
    · rw [distinct_aux]
      intro a b hab hbn
      rw [Bool.not_eq_true', beq_eq_false_iff_ne]
      exact hdr a b hab hbn
    · rw [distinct_aux]
      intro a b hab hbn
      rw [Bool.not_eq_true', beq_eq_false_iff_ne]
      exact hdc a b hab hbn

/-- Witness for C4 at a concrete complete valid grid. -/
theorem c4_witness :
    is_valid [[some 0, some 1], [some 1, some 0]] = true ↔
      specComplete 2 [[some 0, some 1], [some 1, some 0]] ∧
      specBalanced 2 [[some 0, some 1], [some 1, some 0]] ∧
      specNoTriple 2 [[some 0, some 1], [some 1, some 0]] ∧
      specDistinct 2 [[some 0, some 1], [some 1, some 0]] :=
  c4_is_valid_iff 2 [[some 0, some 1], [some 1, some 0]]
    (by constructor <;> decide) (by decide)

end Binairo

namespace Binairo

/-! ### Counting valid completions (C3): the reference count -/

theorem applyAsg_gsize :
    ∀ (cells : List (Nat × Nat)) (g : Grid) (vs : List Int),
    gsize (applyAsg g cells vs) = gsize g := by
  intro cells
  induction cells with
  | nil => intro g vs; rfl
  | cons hd rest ih =>
    intro g vs
    obtain ⟨r, c⟩ := hd
    cases vs with
    | nil => rfl
    | cons v vt =>
      rw [applyAsg, ih, gsize_setCell]

theorem applyAsg_WF {n : Nat} :
    ∀ (cells : List (Nat × Nat)) (g : Grid) (vs : List Int), WF n g →
    WF n (applyAsg g cells vs) := by
  intro cells
  induction cells with
  | nil => intro g vs hwf; exact hwf
  | cons hd rest ih =>
    intro g vs hwf
    obtain ⟨r, c⟩ := hd
    cases vs with
    | nil => exact hwf
    | cons v vt => exact ih _ vt (WF_setCell hwf r c _)

/-- Filling a set of currently-empty cells preserves every filled cell. -/
theorem applyAsg_preserves_some {q : Nat × Nat} {x : Int} :
    ∀ (cells : List (Nat × Nat)) (g : Grid) (vs : List Int),
    (∀ p ∈ cells, getCell g p.1 p.2 = none) → cells.Nodup →
    getCell g q.1 q.2 = some x →
    getCell (applyAsg g cells vs) q.1 q.2 = some x := by
  intro cells
  induction cells with
  | nil => intro g vs _ _ hq; exact hq
  | cons hd rest ih =>
    intro g vs hnone hnodup hq
    obtain ⟨r, c⟩ := hd
    cases vs with
    | nil => exact hq
    | cons v vt =>
      have hne : (r, c) ≠ q := by
        intro hEq
        rw [hEq] at hnone
        rw [hnone q (List.mem_cons_self _ _)] at hq
        exact Option.noConfusion hq
      rw [applyAsg]
      refine ih _ vt ?_ (List.Nodup.of_cons hnodup) ?_
      · intro p hp
        have hpne : (r, c) ≠ p := by
          intro hEq
          rw [hEq] at hnodup
          exact (List.nodup_cons.mp hnodup).1 hp
        rw [getCell_setCell_ne hpne]
        exact hnone p (List.mem_cons_of_mem _ hp)
      · rw [getCell_setCell_ne hne]
        exact hq

/-- Splitting the completion count on the first cell's value. -/
theorem assignCount_cons (g : Grid) (r c : Nat) (rest : List (Nat × Nat)) :
    assignCount g ((r, c) :: rest) =
      assignCount (setCell g r c (some 0)) rest +
      assignCount (setCell g r c (some 1)) rest := by
  unfold assignCount
  rw [List.length_cons, vecs, List.countP_append, List.countP_map,
    List.countP_map]
  rfl

/-- The completion count does not depend on the order in which the empty
cells are enumerated. -/
theorem assignCount_perm {c1 c2 : List (Nat × Nat)} (hperm : c1.Perm c2) :
    ∀ g : Grid, assignCount g c1 = assignCount g c2 := by
  induction hperm with
  | nil => intro g; rfl
  | cons x p ih =>
    intro g
    obtain ⟨r, c⟩ := x
    rw [assignCount_cons, assignCount_cons, ih, ih]
  | swap x y t =>
    intro g
    obtain ⟨r1, c1'⟩ := x
    obtain ⟨r2, c2'⟩ := y
    rw [assignCount_cons, assignCount_cons, assignCount_cons, assignCount_cons,
      assignCount_cons, assignCount_cons]
    by_cases hxy : (r2, c2') = (r1, c1')
    · have hreq : r2 = r1 := congrArg Prod.fst hxy
      have hceq : c2' = c1' := congrArg Prod.snd hxy
      subst hreq
      subst hceq
      simp only [setCell_setCell]
    · rw [setCell_comm hxy, setCell_comm hxy, setCell_comm hxy, setCell_comm hxy]
      omega
  | trans p1 p2 ih1 ih2 =>
    intro g
    exact (ih1 g).trans (ih2 g)

end Binairo

namespace Binairo

/-- Pruning soundness: if `_is_valid_placement` rejects writing `v` at
the in-range empty cell `(r, c)`, then no assignment of the remaining
empty cells turns the grid with `v` placed there into an `is_valid`
grid — a rejected branch contains no completion. -/
theorem assignCount_eq_zero_of_invalid {n : Nat} {g : Grid} {r c : Nat}
    {v : Int} {rest : List (Nat × Nat)}
    (hwf : WF n g) (hr : r < n) (hc : c < n) (hval : v = 0 ∨ v = 1)
    (hrest : ∀ p ∈ rest, getCell g p.1 p.2 = none)
    (hnodup : ((r, c) :: rest).Nodup)
    (hinv : is_valid_placement g r c v = false) :
    assignCount (setCell g r c (some v)) rest = 0 := by
  have hwf1 : WF n (setCell g r c (some v)) := WF_setCell hwf r c _
  have hn : gsize g = n := hwf.1
  have hn1 : gsize (setCell g r c (some v)) = n := hwf1.1
  have hrcnotin : (r, c) ∉ rest := (List.nodup_cons.mp hnodup).1
  have hnodup' : rest.Nodup := (List.nodup_cons.mp hnodup).2
  have hrest1 : ∀ p ∈ rest, getCell (setCell g r c (some v)) p.1 p.2 = none := by
    intro p hp
    have hpne : (r, c) ≠ p := fun hEq => hrcnotin (hEq ▸ hp)
    rw [getCell_setCell_ne hpne]
    exact hrest p hp
  unfold assignCount
  rw [List.countP_eq_zero]
  intro vs hvs
  rw [Bool.not_eq_true]
  set gfin := applyAsg (setCell g r c (some v)) rest vs with hgfin
  have hwff : WF n gfin := applyAsg_WF rest _ vs hwf1
  have hnf : gsize gfin = n := hwff.1
  have hpres : ∀ (rr cc : Nat) (x : Int),
      getCell (setCell g r c (some v)) rr cc = some x →
      getCell gfin rr cc = some x := fun rr cc x hx =>
    applyAsg_preserves_some (q := (rr, cc)) rest _ vs hrest1 hnodup' hx
  by_contra hvalbool
  rw [Bool.not_eq_false] at hvalbool
  unfold is_valid at hvalbool
  rw [show gsize gfin = n from hnf] at hvalbool
  simp only [Bool.and_eq_true] at hvalbool
  obtain ⟨⟨⟨⟨hA, hB⟩, hC⟩, hD⟩, hE⟩ := hvalbool
  rw [all_range_iff] at hB hC
  have hhalff : halfSize gfin = n / 2 := by rw [halfSize, hnf]
  unfold is_valid_placement at hinv
  rw [Bool.and_eq_false_iff] at hinv
  rcases hinv with hwin | hcount
  · rw [Bool.and_eq_false_iff] at hwin
    rcases hwin with hrow | hcol
    · -- a bad row window in the placed grid survives into the completion
      rw [List.all_eq_false] at hrow
      obtain ⟨s, hsmem, hbad⟩ := hrow
      rw [show gsize g = n from hn] at hsmem
      rw [Bool.not_eq_true, Bool.not_eq_false'] at hbad
      have hex : ∃ x : Int, getCell (setCell g r c (some v)) r s = some x ∧
          getCell (setCell g r c (some v)) r (s+1) = some x ∧
          getCell (setCell g r c (some v)) r (s+2) = some x := by
        by_contra hne
        rw [← tripleBadRow_eq_false_iff] at hne
        rw [hbad] at hne
        exact Bool.noConfusion hne
      obtain ⟨x, hx1, hx2, hx3⟩ := hex
      rw [mem_winRange] at hsmem
      have hlv := hB r hr
      unfold lineValid at hlv
      simp only [Bool.and_eq_true, List.all_eq_true, List.mem_range] at hlv
      have htr := hlv.2 s (by rw [show gsize gfin = n from hnf]; omega)
      rw [Bool.not_eq_true', Bool.and_eq_false_iff] at htr
      have he1 : (gfin.getD r []).getD s none = some x := hpres r s x hx1
      have he2 : (gfin.getD r []).getD (s+1) none = some x := hpres r (s+1) x hx2
      have he3 : (gfin.getD r []).getD (s+2) none = some x := hpres r (s+2) x hx3
      rcases htr with htr | htr <;> rw [beq_eq_false_iff_ne] at htr
      · exact htr (he1.trans he2.symm)
      · exact htr (he2.trans he3.symm)
    · -- a bad column window survives into the completion
      rw [List.all_eq_false] at hcol
      obtain ⟨s, hsmem, hbad⟩ := hcol
      rw [show gsize g = n from hn] at hsmem
      rw [Bool.not_eq_true, Bool.not_eq_false'] at hbad
      have hex : ∃ x : Int, getCell (setCell g r c (some v)) s c = some x ∧
          getCell (setCell g r c (some v)) (s+1) c = some x ∧
          getCell (setCell g r c (some v)) (s+2) c = some x := by
        by_contra hne
        rw [← tripleBadCol_eq_false_iff] at hne
        rw [hbad] at hne
        exact Bool.noConfusion hne
      obtain ⟨x, hx1, hx2, hx3⟩ := hex
      rw [mem_winRange] at hsmem
      have hlv := hC c hc
      unfold lineValid at hlv
      simp only [Bool.and_eq_true, List.all_eq_true, List.mem_range] at hlv
      have htr := hlv.2 s (by rw [show gsize gfin = n from hnf]; omega)
      rw [Bool.not_eq_true', Bool.and_eq_false_iff] at htr
      have he1 : (colList gfin c).getD s none = some x := by
        rw [colList_getD (by omega : s < gsize gfin)]
        exact hpres s c x hx1
      have he2 : (colList gfin c).getD (s+1) none = some x := by
        rw [colList_getD (by omega : s + 1 < gsize gfin)]
        exact hpres (s+1) c x hx2
      have he3 : (colList gfin c).getD (s+2) none = some x := by
        rw [colList_getD (by omega : s + 2 < gsize gfin)]
        exact hpres (s+2) c x hx3
      rcases htr with htr | htr <;> rw [beq_eq_false_iff_ne] at htr
      · exact htr (he1.trans he2.symm)
      · exact htr (he2.trans he3.symm)
  · -- a count already exceeding half survives into the completion
    rw [Bool.not_eq_false'] at hcount
    rw [Bool.or_eq_true, decide_eq_true_iff, decide_eq_true_iff] at hcount
    have hmono : ∀ (p q : Nat → Cell),
        (∀ i, i < n → ∀ x : Int, p i = some x → q i = some x) →
        (List.range n).countP (fun i => p i == some v) ≤
          (List.range n).countP (fun i => q i == some v) := by
      intro p q himp
      refine List.countP_mono_left ?_
      intro i hi hpi
      rw [List.mem_range] at hi
      rw [beq_iff_eq] at hpi
      rw [beq_iff_eq]
      exact himp i hi v hpi
    rcases hcount with hcnt | hcnt
    · -- row count of v exceeds half
      rw [show gsize g = n from hn, halfSize, show gsize g = n from hn] at hcnt
      have hstep : (List.range n).countP
            (fun i => getCell (setCell g r c (some v)) r i == some v) ≤
          (List.range n).countP (fun i => getCell gfin r i == some v) :=
        hmono _ _ (fun i _ x hx => hpres r i x hx)
      have hlv := hB r hr
      unfold lineValid at hlv
      simp only [Bool.and_eq_true, beq_iff_eq] at hlv
      have hbal : (gfin.getD r []).count (some v) = n / 2 := by
        rcases hval with rfl | rfl
        · rw [hlv.1.1, hhalff]
        · rw [hlv.1.2, hhalff]
      rw [count_eq_countP_range
        (show (gfin.getD r []).length = n from rowOf_length hwff hr)
        (some v)] at hbal
      have hcong : (List.range n).countP
            (fun i => (gfin.getD r []).getD i none == some v) =
          (List.range n).countP (fun i => getCell gfin r i == some v) :=
        List.countP_congr (fun i _ => Iff.rfl)
      rw [hcong] at hbal
      omega
    · -- column count of v exceeds half
      rw [show gsize g = n from hn, halfSize, show gsize g = n from hn] at hcnt
      have hstep : (List.range n).countP
            (fun i => getCell (setCell g r c (some v)) i c == some v) ≤
          (List.range n).countP (fun i => getCell gfin i c == some v) :=
        hmono _ _ (fun i _ x hx => hpres i c x hx)
      have hlv := hC c hc
      unfold lineValid at hlv
      simp only [Bool.and_eq_true, beq_iff_eq] at hlv
      have hbal : (colList gfin c).count (some v) = n / 2 := by
        rcases hval with rfl | rfl
        · rw [hlv.1.1, hhalff]
        · rw [hlv.1.2, hhalff]
      rw [count_eq_countP_range ((colList_length gfin c).trans hnf) (some v)]
        at hbal
      have hcong : (List.range n).countP
            (fun i => (colList gfin c).getD i none == some v) =
          (List.range n).countP (fun i => getCell gfin i c == some v) := by
        refine List.countP_congr ?_
        intro i hi
        rw [List.mem_range] at hi
        rw [colList_getD (by omega : i < gsize gfin)]
      rw [hcong] at hbal
      omega

end Binairo

namespace Binairo

/-- `_count_solutions_recursive` computes exactly the number of valid
completions, clipped at `max_count`, and restores the grid. -/
theorem csr_eq {n : Nat} :
    ∀ (cells : List (Nat × Nat)) (g : Grid) (m : Nat), WF n g → 1 ≤ m →
    cells.Nodup →
    (∀ p ∈ cells, getCell g p.1 p.2 = none ∧ p.1 < n ∧ p.2 < n) →
    csr cells g m = (min (assignCount g cells) m, g) := by
  intro cells
  induction cells with
  | nil =>
    intro g m hwf hm _ _
    have hAC : assignCount g [] = if is_valid g then 1 else 0 := by
      unfold assignCount vecs
      by_cases hval : is_valid g = true <;>
        simp [applyAsg, hval, List.countP_cons]
    rw [csr, hAC]
    by_cases hval : is_valid g = true
    · rw [if_pos hval, Prod.mk.injEq]
      exact ⟨by omega, rfl⟩
    · rw [if_neg hval, Prod.mk.injEq]
      exact ⟨by omega, rfl⟩
  | cons hd rest ih =>
    intro g m hwf hm hnodup hprops
    obtain ⟨r, c⟩ := hd
    obtain ⟨hnone, hr, hc⟩ := hprops (r, c) (List.mem_cons_self _ _)
    have hrestprops : ∀ p ∈ rest,
        getCell g p.1 p.2 = none ∧ p.1 < n ∧ p.2 < n :=
      fun p hp => hprops p (List.mem_cons_of_mem _ hp)
    have hrcnotin : (r, c) ∉ rest := (List.nodup_cons.mp hnodup).1
    have hnodup' : rest.Nodup := (List.nodup_cons.mp hnodup).2
    have hrestnone : ∀ (v : Int) (p : Nat × Nat), p ∈ rest →
        getCell (setCell g r c (some v)) p.1 p.2 = none := by
      intro v p hp
      have hpne : (r, c) ≠ p := fun hEq => hrcnotin (hEq ▸ hp)
      rw [getCell_setCell_ne hpne]
      exact (hrestprops p hp).1
    have hrestore : ∀ v : Int, setCell (setCell g r c (some v)) r c none = g := by
      intro v
      rw [setCell_setCell]
      have h1 := setCell_getCell g r c
      rw [hnone] at h1
      exact h1
    have hdecomp := assignCount_cons g r c rest
    have hihargs : ∀ v : Int, ∀ p ∈ rest,
        getCell (setCell g r c (some v)) p.1 p.2 = none ∧ p.1 < n ∧ p.2 < n :=
      fun v p hp => ⟨hrestnone v p hp, (hrestprops p hp).2⟩
    have hrestnone' : ∀ p ∈ rest, getCell g p.1 p.2 = none :=
      fun p hp => (hrestprops p hp).1
    simp only [csr]
    by_cases h0 : is_valid_placement g r c 0 = true
    · rw [if_pos h0, ih (setCell g r c (some 0)) m (WF_setCell hwf r c _) hm
        hnodup' (hihargs 0)]
      dsimp only
      by_cases hge0 : min (assignCount (setCell g r c (some 0)) rest) m ≥ m
      · rw [if_pos hge0]
        dsimp only
        rw [hrestore 0, Prod.mk.injEq]
        refine ⟨?_, rfl⟩
        rw [hdecomp]
        omega
      · rw [if_neg hge0]
        dsimp only
        rw [hrestore 0]
        by_cases h1 : is_valid_placement g r c 1 = true
        · rw [if_pos h1, ih (setCell g r c (some 1)) m (WF_setCell hwf r c _) hm
            hnodup' (hihargs 1)]
          dsimp only
          by_cases hge1 : min (assignCount (setCell g r c (some 0)) rest) m +
              min (assignCount (setCell g r c (some 1)) rest) m ≥ m
          · rw [if_pos hge1]
            rw [hrestore 1, Prod.mk.injEq]
            refine ⟨?_, rfl⟩
            rw [hdecomp]
            omega
          · rw [if_neg hge1]
            rw [hrestore 1, Prod.mk.injEq]
            refine ⟨?_, rfl⟩
            rw [hdecomp]
            omega
        · rw [if_neg h1, Prod.mk.injEq]
          have hzero : assignCount (setCell g r c (some 1)) rest = 0 :=
            assignCount_eq_zero_of_invalid hwf hr hc (Or.inr rfl) hrestnone'
              hnodup (Bool.not_eq_true _ ▸ h1)
          refine ⟨?_, rfl⟩
          rw [hdecomp, hzero]
          omega
    · rw [if_neg h0]
      dsimp only
      have hzero : assignCount (setCell g r c (some 0)) rest = 0 :=
        assignCount_eq_zero_of_invalid hwf hr hc (Or.inl rfl) hrestnone'
          hnodup (Bool.not_eq_true _ ▸ h0)
      by_cases h1 : is_valid_placement g r c 1 = true
      · rw [if_pos h1, ih (setCell g r c (some 1)) m (WF_setCell hwf r c _) hm
          hnodup' (hihargs 1)]
        dsimp only
        by_cases hge1 : 0 + min (assignCount (setCell g r c (some 1)) rest) m ≥ m
        · rw [if_pos hge1]
          rw [hrestore 1, Prod.mk.injEq]
          refine ⟨?_, rfl⟩
          rw [hdecomp, hzero]
          omega
        · rw [if_neg hge1]
          rw [hrestore 1, Prod.mk.injEq]
          refine ⟨?_, rfl⟩
          rw [hdecomp, hzero]
          omega
      · rw [if_neg h1, Prod.mk.injEq]
        have hzero1 : assignCount (setCell g r c (some 1)) rest = 0 :=
          assignCount_eq_zero_of_invalid hwf hr hc (Or.inr rfl) hrestnone'
            hnodup (Bool.not_eq_true _ ▸ h1)
        refine ⟨?_, rfl⟩
        rw [hdecomp, hzero, hzero1]
        omega

theorem allCells_nodup (n : Nat) : (allCells n).Nodup :=
  (List.nodup_range n).product (List.nodup_range n)

/-- Claim C3 (confirmed): for a well-formed grid and any `limit ≥ 1`,
`count_solutions` returns exactly `min(N, limit)`, where `N` is the
number of distinct assignments of the empty cells whose completed grid
passes `is_valid`.  In particular with `limit = 2` it returns 1 for a
uniquely-completable grid and 2 when at least two completions exist. -/
theorem c3_count_solutions_eq_min (n : Nat) (g : Grid) (limit : Nat)
    (hwf : WF n g) (hlim : 1 ≤ limit) :
    (count_solutions g limit).1 = min (numCompletions g) limit := by
  unfold count_solutions numCompletions
  by_cases hemp : (emptiesOf g).isEmpty
  · simp only [hemp, if_true]
    rw [List.isEmpty_iff] at hemp
    rw [hemp]
    have hAC : assignCount g [] = if is_valid g then 1 else 0 := by
      unfold assignCount vecs
      by_cases hval : is_valid g = true <;>
        simp [applyAsg, hval, List.countP_cons]
    rw [hAC]
    by_cases hval : is_valid g = true
    · rw [if_pos hval]
      omega
    · rw [if_neg hval]
      omega
  · simp only [hemp, Bool.false_eq_true, if_false]
    have hperm : (sort_by_constraints g (emptiesOf g)).Perm (emptiesOf g) :=
      sortByKey_perm (constraint_count g) (emptiesOf g)
    have hnodup : (sort_by_constraints g (emptiesOf g)).Nodup :=
      (hperm.symm).nodup ((allCells_nodup (gsize g)).filter _)
    have hprops : ∀ p ∈ sort_by_constraints g (emptiesOf g),
        getCell g p.1 p.2 = none ∧ p.1 < n ∧ p.2 < n := by
      intro p hp
      have hpe := hperm.mem_iff.mp hp
      have h1 := mem_emptiesOf hpe
      have h2 := (List.mem_filter.mp hpe).1
      rw [mem_allCells, show gsize g = n from hwf.1] at h2
      exact ⟨Option.isNone_iff_eq_none.mp h1, h2⟩
    rw [csr_eq (sort_by_constraints g (emptiesOf g)) g limit hwf hlim
      hnodup hprops]
    rw [assignCount_perm hperm g]

/-- Witness for C3: the empty 2×2 grid has exactly two valid
completions, so counting with limit 2 is clipped to 2. -/
theorem c3_witness :
    (count_solutions [[none, none], [none, none]] 2).1 =
      min (numCompletions [[none, none], [none, none]]) 2 :=
  c3_count_solutions_eq_min 2 [[none, none], [none, none]] 2
    (by constructor <;> decide) (by decide)

end Binairo

